import Mathlib

/-!
Shallow embedding of the `innumerable` event-counting crate (src/lib.rs).

Data model, from the source:
* a thread-local counter store is `HashMap<(&'static str, i64), u64>`;
  we embed it as an association list from `String × Int` keys to `Nat`
  counts (hashbrown iteration order within one store is irrelevant here
  because keys inside one store are unique).
* the global registry `MAPS` is a `Vec` of stores; we embed it as
  `List Store`, indexed by registration order, with each recording
  thread identified by the index of its store.
* `event!(name, index)` does
  `counts.entry((name, index as i64)).or_insert(0) += 1` on the store of
  the calling thread; `event!(name)` expands to `event!(name, 0)`.
* `print_counts` merges every store into a
  `BTreeMap<&str, BTreeMap<i64, u64>>` via
  `events.entry(name).or_insert_with(BTreeMap::new).insert(index, count)`
  (note: `insert`, which overwrites an existing entry for the same key,
  is what the source does) and then renders each name group.  BTreeMap
  iteration is ascending in the key order, which we embed as sorted
  association lists built by ordered insertion.
-/

/-- A thread-local counter store: the embedding of
`HashMap<(&'static str, i64), u64>`. -/
abbrev Store := List ((String × Int) × Nat)

/-- Look up the count recorded for a key, `0` when the key is absent
(`u64` counts; the map never stores a key without a count). -/
def storeLookup : Store → String × Int → Nat
  | [], _ => 0
  | (k', c) :: rest, k => if k' = k then c else storeLookup rest k

/-- The effect of `*counts.entry(key).or_insert(0) += 1`: increment the
count for `k`, initializing to 1 when `k` is absent. -/
def bump : Store → String × Int → Store
  | [], k => [(k, 1)]
  | (k', c) :: rest, k =>
      if k' = k then (k', c + 1) :: rest else (k', c) :: bump rest k

/-- Read the store of thread `t` out of the registry (the `Arc` held by
the thread-local `THREAD_COUNTS`); an out-of-range index yields the
empty store. -/
def getStore : List Store → Nat → Store
  | [], _ => []
  | s :: _, 0 => s
  | _ :: rest, Nat.succ t => getStore rest t

/-- Write back the store of thread `t` into the registry. -/
def setStore : List Store → Nat → Store → List Store
  | [], _, _ => []
  | _ :: rest, 0, s => s :: rest
  | x :: rest, Nat.succ t, s => x :: setStore rest t s

/-- `event!(name, idx)` performed by the thread owning store `t`: only
that store is touched, by a single `bump`. -/
def recordAt (stores : List Store) (t : Nat) (name : String) (idx : Int) :
    List Store :=
  setStore stores t (bump (getStore stores t) (name, idx))

/-- `event!(name)`: the macro expands to `event!(name, 0)`. -/
def recordDefaultAt (stores : List Store) (t : Nat) (name : String) :
    List Store :=
  recordAt stores t name 0

/-- One `event!` call by thread `t`, with the lazy creation performed by
`create_local_map`: a thread whose store does not exist yet gets a fresh
empty store appended to the registry, and the increment lands there. -/
def recordCall (stores : List Store) (t : Nat) (name : String) (idx : Int) :
    List Store :=
  if t < stores.length then recordAt stores t name idx
  else stores ++ [bump [] (name, idx)]

/-- Run a sequence of `event!` calls `(thread, name, index)` from the
initial empty registry. -/
def applyCalls (calls : List (Nat × String × Int)) : List Store :=
  calls.foldl (fun st c => recordCall st c.1 c.2.1 c.2.2) []

/-- The merged view built by `print_counts`: the embedding of
`BTreeMap<&str, BTreeMap<i64, u64>>` as a name-sorted association list
of index-sorted association lists. -/
abbrev AggView := List (String × List (Int × Nat))

/-- `BTreeMap::insert(index, count)` on the inner map: ordered insertion
that OVERWRITES the stored count when the index is already present
(this is exactly what the source does; it does not add). -/
def insertCount : List (Int × Nat) → Int → Nat → List (Int × Nat)
  | [], i, c => [(i, c)]
  | (i', c') :: rest, i, c =>
      if i < i' then (i, c) :: (i', c') :: rest
      else if i = i' then (i, c) :: rest
      else (i', c') :: insertCount rest i c

/-- Strict lexicographic order on character lists, comparing scalar
values elementwise; a proper initial segment sorts first. -/
def charsLt : List Char → List Char → Bool
  | [], [] => false
  | [], _ :: _ => true
  | _ :: _, [] => false
  | a :: as, b :: bs =>
      if a.toNat < b.toNat then true
      else if b.toNat < a.toNat then false
      else charsLt as bs

/-- The order `BTreeMap<&str, _>` sorts its keys by: Rust compares
`str` lexicographically on UTF-8 bytes, which coincides with
lexicographic comparison of the scalar-value sequences because UTF-8
is order-preserving. -/
def strLt (a b : String) : Bool :=
  charsLt a.data b.data

/-- `events.entry(name).or_insert_with(BTreeMap::new).insert(index, count)`
on the outer map: find or create the group of `name` (kept sorted by the
name string) and insert into its inner map. -/
def insertEvent : AggView → String → Int → Nat → AggView
  | [], name, i, c => [(name, [(i, c)])]
  | (n', cs) :: rest, name, i, c =>
      if strLt name n' then (name, [(i, c)]) :: (n', cs) :: rest
      else if name = n' then (n', insertCount cs i c) :: rest
      else (n', cs) :: insertEvent rest name i c

/-- Merge one store into the accumulated view: the inner loop
`for (&(name, index), &count) in map.iter()`. -/
def mergeStore (acc : AggView) (s : Store) : AggView :=
  s.foldl (fun acc e => insertEvent acc e.1.1 e.1.2 e.2) acc

/-- Merge every registered store, in registry order: the outer loop
`for map in &*maps`. -/
def mergeStores (stores : List Store) : AggView :=
  stores.foldl mergeStore []

/-- One-decimal rendering of `count as f64 / sum as f64 * 100.0` under
Rust `\x7b:.1\x7d` formatting.  The source computes in `f64`; we model the
quotient exactly over the naturals, rounding the number of tenths of a
percent to nearest with ties to even, which agrees with the `f64`
computation whenever the latter is exact (in particular at every value
used below).  `sum = 0` never reaches this function (see the positivity
theorem). -/
def formatPercent (count sum : Nat) : String :=
  let n := count * 1000
  let q := n / sum
  let r := n % sum
  let tenths :=
    if 2 * r < sum then q
    else if sum < 2 * r then q + 1
    else if q % 2 = 0 then q else q + 1
  toString (tenths / 10) ++ "." ++ toString (tenths % 10)

/-- The line `println!("\x7bname\x7d: \x7bsum\x7d")`; `sum` is the total count of
`name` across all sub-indices, cast to `f64` whose `Display` prints an
exactly-representable integral value without a fractional part. -/
def sumLine (name : String) (cs : List (Int × Nat)) : String :=
  name ++ ": " ++ toString ((cs.map Prod.snd).sum)

/-- The per-index lines
`println!("\x7bname\x7d[\x7bindex\x7d]: \x7b:.1\x7d%", count as f64 / sum * 100.0)`,
one per `(index, count)` pair in ascending index order. -/
def breakdownLines (name : String) (cs : List (Int × Nat)) : List String :=
  cs.map fun p =>
    name ++ "[" ++ toString p.1 ++ "]: " ++
      formatPercent p.2 ((cs.map Prod.snd).sum) ++ "%"

/-- Does the inner map contain key `0`?  (`counts.contains_key(&0)`). -/
def hasIndexZero (cs : List (Int × Nat)) : Bool :=
  cs.any fun p => p.1 == 0

/-- The lines printed for one event name:
the sum line always, then the breakdown exactly when
`counts.len() > 1 || !counts.contains_key(&0)`. -/
def renderEvent (name : String) (cs : List (Int × Nat)) : List String :=
  sumLine name cs ::
    (if 1 < cs.length || !hasIndexZero cs then breakdownLines name cs else [])

/-- The whole output of `print_counts`, as the list of printed lines. -/
def printCounts (stores : List Store) : List String :=
  (mergeStores stores).flatMap fun e => renderEvent e.1 e.2

/-- The observable state a call to `print_counts` acts on: the registry
with its stores, and the text already written to standard output. -/
structure World where
  stores : List Store
  out : List String

/-- One call to `print_counts`: it reads the stores (building its
ephemeral merged view locally) and appends the report to standard
output; no statement in its body writes to any store or to the
registry. -/
def doPrintCounts (w : World) : World :=
  ⟨w.stores, w.out ++ printCounts w.stores⟩

/-- The lock acquisitions and releases a run of `print_counts`
performs, in program order. -/
inductive LockEvent where
  | acqRegistry : LockEvent
  | relRegistry : LockEvent
  | acqStore : Nat → LockEvent
  | relStore : Nat → LockEvent
deriving DecidableEq

/-- The lock trace of `print_counts` over a registry of `n` stores,
read off the source by guard scopes: `let maps = MAPS.lock().unwrap()`
acquires the registry lock and that guard is dropped only when the
function returns (after the printing loop); inside the merge loop,
`let map = map.lock().unwrap()` acquires one store lock per iteration
and drops it at the end of that iteration.  Printing performs no lock
operation. -/
def printCountsLockTrace (n : Nat) : List LockEvent :=
  LockEvent.acqRegistry ::
    ((List.range n).flatMap fun i => [LockEvent.acqStore i, LockEvent.relStore i])
      ++ [LockEvent.relRegistry]

/-- Which locks are held at an instant: the registry lock, and the
multiset of held store locks. -/
structure LockState where
  registryHeld : Bool
  storeHeld : List Nat
deriving DecidableEq

/-- Effect of one lock event on the held-locks state. -/
def stepLock (s : LockState) : LockEvent → LockState
  | LockEvent.acqRegistry => ⟨true, s.storeHeld⟩
  | LockEvent.relRegistry => ⟨false, s.storeHeld⟩
  | LockEvent.acqStore i => ⟨s.registryHeld, i :: s.storeHeld⟩
  | LockEvent.relStore i => ⟨s.registryHeld, s.storeHeld.erase i⟩

/-- Every held-locks state visited while a trace runs from `s`,
including the initial and final states. -/
def lockStatesFrom (s : LockState) : List LockEvent → List LockState
  | [] => [s]
  | e :: tr => s :: lockStatesFrom (stepLock s e) tr

/-- The held-locks state after a whole trace has run from `s`. -/
def runLocks (s : LockState) (tr : List LockEvent) : LockState :=
  tr.foldl stepLock s

/-- The discipline claimed by the specification: the registry lock is
released before any store lock is acquired, i.e. every store-lock
acquisition in the trace is preceded by the registry-lock release. -/
def registryReleasedBeforeMerge (tr : List LockEvent) : Prop :=
  ∀ pre i suf, tr = pre ++ LockEvent.acqStore i :: suf →
    LockEvent.relRegistry ∈ pre

/-! ### Lemmas about a single store -/

lemma storeLookup_bump_self (s : Store) (k : String × Int) :
    storeLookup (bump s k) k = storeLookup s k + 1 := by
  induction s with
  | nil => simp [bump, storeLookup]
  | cons e rest ih =>
    obtain ⟨k', c⟩ := e
    by_cases h : k' = k
    · subst h; simp [bump, storeLookup]
    · simp [bump, storeLookup, h, ih]

lemma storeLookup_bump_ne (s : Store) (k k' : String × Int) (h : k' ≠ k) :
    storeLookup (bump s k) k' = storeLookup s k' := by
  induction s with
  | nil => simp [bump, storeLookup, Ne.symm h]
  | cons e rest ih =>
    obtain ⟨k2, c⟩ := e
    by_cases h2 : k2 = k
    · subst h2; simp [bump, storeLookup, Ne.symm h]
    · simp [bump, storeLookup, h2, ih]

lemma getStore_setStore_self :
    ∀ (l : List Store) (t : Nat) (s : Store), t < l.length →
      getStore (setStore l t s) t = s := by
  intro l
  induction l with
  | nil => intro t s h; simp at h
  | cons x rest ih =>
    intro t s h
    cases t with
    | zero => simp [setStore, getStore]
    | succ t =>
      simp only [setStore, getStore]
      exact ih t s (by simpa using h)

lemma getStore_setStore_ne :
    ∀ (l : List Store) (t j : Nat) (s : Store), j ≠ t →
      getStore (setStore l t s) j = getStore l j := by
  intro l
  induction l with
  | nil => intro t j s h; simp [setStore]
  | cons x rest ih =>
    intro t j s h
    cases t with
    | zero =>
      cases j with
      | zero => exact absurd rfl h
      | succ j => simp [setStore, getStore]
    | succ t =>
      cases j with
      | zero => simp [setStore, getStore]
      | succ j =>
        simp only [setStore, getStore]
        exact ih t j s (fun hh => h (by rw [hh]))

/-! ### Claim theorems that need only the store layer -/

/-- Claim C6: one `event!(name, idx)` call by the thread owning store
`t` increments the count under key `(name, idx)` in that store by
exactly 1 (so an absent key, whose count reads as 0, is initialized
to 1), leaves every other key of that store unchanged, and leaves
every other store of the registry unchanged.  The operation is a total
function returning the new registry, modelling that it always succeeds
and returns no value. -/
theorem record_increments_exactly_one_key (stores : List Store) (t : Nat)
    (name : String) (idx : Int) (h : t < stores.length) :
    storeLookup (getStore (recordAt stores t name idx) t) (name, idx)
        = storeLookup (getStore stores t) (name, idx) + 1
      ∧ (∀ k : String × Int, k ≠ (name, idx) →
          storeLookup (getStore (recordAt stores t name idx) t) k
            = storeLookup (getStore stores t) k)
      ∧ ∀ j : Nat, j ≠ t →
          getStore (recordAt stores t name idx) j = getStore stores j := by
  refine ⟨?_, ?_, ?_⟩
  · rw [recordAt, getStore_setStore_self stores t _ h, storeLookup_bump_self]
  · intro k hk
    rw [recordAt, getStore_setStore_self stores t _ h,
      storeLookup_bump_ne _ _ _ hk]
  · intro j hj
    rw [recordAt, getStore_setStore_ne stores t j _ hj]

theorem record_increments_exactly_one_key_witness :
    0 < ([[(("a", 0), 1)]] : List Store).length ∧
      (storeLookup (getStore (recordAt [[(("a", 0), 1)]] 0 "a" 0) 0) ("a", 0)
          = storeLookup (getStore ([[(("a", 0), 1)]] : List Store) 0) ("a", 0) + 1
        ∧ (∀ k : String × Int, k ≠ ("a", 0) →
            storeLookup (getStore (recordAt [[(("a", 0), 1)]] 0 "a" 0) 0) k
              = storeLookup (getStore ([[(("a", 0), 1)]] : List Store) 0) k)
        ∧ ∀ j : Nat, j ≠ 0 →
            getStore (recordAt [[(("a", 0), 1)]] 0 "a" 0) j
              = getStore ([[(("a", 0), 1)]] : List Store) j) :=
  ⟨by decide, record_increments_exactly_one_key [[(("a", 0), 1)]] 0 "a" 0 (by decide)⟩

/-- Claim C7: the one-argument form `event!(name)` expands to
`event!(name, 0)`, so it performs the identical registry update and
every subsequent report is identical under either call. -/
theorem record_default_equiv (stores : List Store) (t : Nat) (name : String) :
    recordDefaultAt stores t name = recordAt stores t name 0 ∧
      printCounts (recordDefaultAt stores t name)
        = printCounts (recordAt stores t name 0) :=
  ⟨rfl, rfl⟩

/-- Claim C8: `print_counts` only reads the registry and the stores:
after a call the stores (hence the registry contents) are unchanged,
and a second call with no intervening `event!` appends exactly the
same lines again. -/
theorem print_counts_read_only (w : World) :
    (doPrintCounts w).stores = w.stores ∧
      (doPrintCounts (doPrintCounts w)).out
        = w.out ++ printCounts w.stores ++ printCounts w.stores := by
  refine ⟨rfl, ?_⟩
  simp [doPrintCounts, List.append_assoc]

/-- Claim C10: the hot-path map keys compare event names by string
value, so two `event!` calls whose name strings have equal character
content update the same counter key: recording under `s1` and then
under `s2` with the same sub-index adds 2 to the one shared key. -/
theorem equal_content_names_share_key (s1 s2 : String) (idx : Int)
    (s : Store) (h : s1.data = s2.data) :
    storeLookup (bump (bump s (s1, idx)) (s2, idx)) (s1, idx)
      = storeLookup s (s1, idx) + 2 := by
  have hs : s1 = s2 := by
    cases s1 with
    | mk d1 =>
      cases s2 with
      | mk d2 => exact congrArg String.mk h
  rw [← hs, storeLookup_bump_self, storeLookup_bump_self]

theorem equal_content_names_share_key_witness :
    ("ab" : String).data = ("ab" : String).data ∧
      storeLookup (bump (bump [] ("ab", 0)) ("ab", 0)) ("ab", 0)
        = storeLookup [] ("ab", 0) + 2 :=
  ⟨rfl, equal_content_names_share_key "ab" "ab" 0 [] rfl⟩

/-- Claim C1 (code bug): the merge in `print_counts` uses
`BTreeMap::insert`, which overwrites, instead of adding, when two
different stores hold a count for the same `(name, index)` key.  With
two threads that each recorded `("x", 0)` once, the registry holds two
stores whose counts for the key sum to 2, but the report says `x: 1`. -/
theorem report_overwrites_cross_thread_counts :
    printCounts (applyCalls [(0, "x", 0), (1, "x", 0)]) = ["x: 1"] ∧
      storeLookup (getStore (applyCalls [(0, "x", 0), (1, "x", 0)]) 0) ("x", 0)
        + storeLookup (getStore (applyCalls [(0, "x", 0), (1, "x", 0)]) 1) ("x", 0)
        = 2 := by
  constructor <;> decide

/-- Claim C3: the sum line renders the total count of the name across
all sub-indices after the `u64 -> f64` cast (exact for these integral
values), and each breakdown line renders `count / sum * 100` to one
decimal place; concretely, after `event!("y", 0)` once and
`event!("y", 1)` three times on one thread the report is exactly
`y: 4`, `y[0]: 25.0%`, `y[1]: 75.0%` in that order. -/
theorem report_line_format :
    (∀ (name : String) (cs : List (Int × Nat)),
        (renderEvent name cs).head?
          = some (name ++ ": " ++ toString ((cs.map Prod.snd).sum))) ∧
      printCounts (applyCalls [(0, "y", 0), (0, "y", 1), (0, "y", 1), (0, "y", 1)])
        = ["y: 4", "y[0]: 25.0%", "y[1]: 75.0%"] :=
  ⟨fun _ _ => rfl, by decide⟩

/-! ### Order metatheory for the BTreeMap key orders -/

lemma charsLt_trans : ∀ as bs cs : List Char,
    charsLt as bs = true → charsLt bs cs = true → charsLt as cs = true := by
  intro as
  induction as with
  | nil =>
    intro bs cs h1 h2
    cases bs with
    | nil => simp [charsLt] at h1
    | cons b bs =>
      cases cs with
      | nil => simp [charsLt] at h2
      | cons c cs => simp [charsLt]
  | cons a as ih =>
    intro bs cs h1 h2
    cases bs with
    | nil => simp [charsLt] at h1
    | cons b bs =>
      cases cs with
      | nil => simp [charsLt] at h2
      | cons c cs =>
        simp only [charsLt] at h1 h2 ⊢
        by_cases hab : a.toNat < b.toNat
        · by_cases hbc : b.toNat < c.toNat
          · have hac : a.toNat < c.toNat := by omega
            simp [hac]
          · by_cases hcb : c.toNat < b.toNat
            · simp [hbc, hcb] at h2
            · have hac : a.toNat < c.toNat := by omega
              simp [hac]
        · by_cases hba : b.toNat < a.toNat
          · simp [hab, hba] at h1
          · by_cases hbc : b.toNat < c.toNat
            · have hac : a.toNat < c.toNat := by omega
              simp [hac]
            · by_cases hcb : c.toNat < b.toNat
              · simp [hbc, hcb] at h2
              · have hac1 : ¬ a.toNat < c.toNat := by omega
                have hac2 : ¬ c.toNat < a.toNat := by omega
                simp only [hab, hba, if_neg, ite_false] at h1
                simp only [hbc, hcb, if_neg, ite_false] at h2
                simp only [hac1, hac2, if_neg, ite_false]
                exact ih bs cs h1 h2

lemma charsLt_total : ∀ as bs : List Char,
    charsLt as bs = true ∨ as = bs ∨ charsLt bs as = true := by
  intro as
  induction as with
  | nil =>
    intro bs
    cases bs with
    | nil => right; left; rfl
    | cons b bs => left; simp [charsLt]
  | cons a as ih =>
    intro bs
    cases bs with
    | nil => right; right; simp [charsLt]
    | cons b bs =>
      by_cases hab : a.toNat < b.toNat
      · left; simp [charsLt, hab]
      · by_cases hba : b.toNat < a.toNat
        · right; right; simp [charsLt, hba]
        · have hn : a.toNat = b.toNat := by omega
          have heq : a = b := Char.ext (UInt32.ext hn)
          subst heq
          rcases ih bs with h | h | h
          · left; simp [charsLt, h]
          · right; left; rw [h]
          · right; right; simp [charsLt, h]

lemma strLt_trans (a b c : String) (h1 : strLt a b = true)
    (h2 : strLt b c = true) : strLt a c = true :=
  charsLt_trans a.data b.data c.data h1 h2

lemma strLt_total (a b : String) :
    strLt a b = true ∨ a = b ∨ strLt b a = true := by
  rcases charsLt_total a.data b.data with h | h | h
  · left; exact h
  · right; left
    cases a with
    | mk d1 =>
      cases b with
      | mk d2 => exact congrArg String.mk h
  · right; right; exact h

/-! ### The merged view: membership and shape of the ordered inserts -/

lemma insertCount_ne_nil (l : List (Int × Nat)) (i : Int) (c : Nat) :
    insertCount l i c ≠ [] := by
  cases l with
  | nil => simp [insertCount]
  | cons p rest =>
    obtain ⟨i', c'⟩ := p
    by_cases h1 : i < i'
    · simp [insertCount, h1]
    · by_cases h2 : i = i' <;> simp [insertCount, h1, h2]

lemma mem_insertCount : ∀ (l : List (Int × Nat)) (i : Int) (c : Nat),
    ∀ p ∈ insertCount l i c, p.1 = i ∨ p ∈ l := by
  intro l
  induction l with
  | nil =>
    intro i c p hp
    simp [insertCount] at hp
    subst hp; left; rfl
  | cons q rest ih =>
    obtain ⟨i', c'⟩ := q
    intro i c p hp
    by_cases h1 : i < i'
    · simp only [insertCount, if_pos h1] at hp
      rcases List.mem_cons.mp hp with h | h
      · subst h; left; rfl
      · right; exact h
    · by_cases h2 : i = i'
      · simp only [insertCount, if_neg h1, if_pos h2] at hp
        rcases List.mem_cons.mp hp with h | h
        · subst h; left; rfl
        · right; exact List.mem_cons_of_mem _ h
      · simp only [insertCount, if_neg h1, if_neg h2] at hp
        rcases List.mem_cons.mp hp with h | h
        · subst h; right; exact List.mem_cons_self _ _
        · rcases ih i c p h with h' | h'
          · left; exact h'
          · right; exact List.mem_cons_of_mem _ h'

lemma pairwise_insertCount : ∀ (l : List (Int × Nat)) (i : Int) (c : Nat),
    l.Pairwise (fun p q => p.1 < q.1) →
      (insertCount l i c).Pairwise (fun p q => p.1 < q.1) := by
  intro l
  induction l with
  | nil => intro i c _; simp [insertCount]
  | cons q rest ih =>
    obtain ⟨i', c'⟩ := q
    intro i c hl
    rw [List.pairwise_cons] at hl
    obtain ⟨hhead, htail⟩ := hl
    by_cases h1 : i < i'
    · simp only [insertCount, if_pos h1]
      rw [List.pairwise_cons]
      constructor
      · intro p hp
        rcases List.mem_cons.mp hp with h | h
        · subst h; exact h1
        · have := hhead p h; omega
      · rw [List.pairwise_cons]; exact ⟨hhead, htail⟩
    · by_cases h2 : i = i'
      · simp only [insertCount, if_neg h1, if_pos h2]
        rw [List.pairwise_cons]
        constructor
        · intro p hp
          have := hhead p hp
          omega
        · exact htail
      · simp only [insertCount, if_neg h1, if_neg h2]
        rw [List.pairwise_cons]
        constructor
        · intro p hp
          rcases mem_insertCount rest i c p hp with h | h
          · omega
          · exact hhead p h
        · exact ih i c htail

lemma mem_insertEvent : ∀ (m : AggView) (name : String) (i : Int) (c : Nat),
    ∀ e ∈ insertEvent m name i c,
      e ∈ m ∨ e = (name, [(i, c)]) ∨
        ∃ cs, (name, cs) ∈ m ∧ e = (name, insertCount cs i c) := by
  intro m
  induction m with
  | nil =>
    intro name i c e he
    simp [insertEvent] at he
    right; left; exact he
  | cons q rest ih =>
    obtain ⟨n', cs⟩ := q
    intro name i c e he
    by_cases h1 : strLt name n' = true
    · simp only [insertEvent, h1, if_true] at he
      rcases List.mem_cons.mp he with h | h
      · right; left; exact h
      · left; exact h
    · by_cases h2 : name = n'
      · subst h2
        simp only [insertEvent, h1, if_false, if_pos rfl] at he
        rcases List.mem_cons.mp he with h | h
        · right; right
          exact ⟨cs, List.mem_cons_self _ _, h⟩
        · left; exact List.mem_cons_of_mem _ h
      · simp only [insertEvent, h1, if_false, if_neg h2] at he
        rcases List.mem_cons.mp he with h | h
        · left; subst h; exact List.mem_cons_self _ _
        · rcases ih name i c e h with h' | h' | ⟨cs0, hcs0, he'⟩
          · left; exact List.mem_cons_of_mem _ h'
          · right; left; exact h'
          · right; right
            exact ⟨cs0, List.mem_cons_of_mem _ hcs0, he'⟩

lemma pairwise_insertEvent : ∀ (m : AggView) (name : String) (i : Int) (c : Nat),
    m.Pairwise (fun a b => strLt a.1 b.1 = true) →
      (insertEvent m name i c).Pairwise (fun a b => strLt a.1 b.1 = true) := by
  intro m
  induction m with
  | nil => intro name i c _; simp [insertEvent]
  | cons q rest ih =>
    obtain ⟨n', cs⟩ := q
    intro name i c hm
    rw [List.pairwise_cons] at hm
    obtain ⟨hhead, htail⟩ := hm
    by_cases h1 : strLt name n' = true
    · simp only [insertEvent, h1, if_true]
      rw [List.pairwise_cons]
      constructor
      · intro p hp
        rcases List.mem_cons.mp hp with h | h
        · subst h; exact h1
        · exact strLt_trans name n' p.1 h1 (hhead p h)
      · rw [List.pairwise_cons]; exact ⟨hhead, htail⟩
    · by_cases h2 : name = n'
      · subst h2
        have hstep : insertEvent ((name, cs) :: rest) name i c
            = (name, insertCount cs i c) :: rest := by
          simp [insertEvent, h1]
        rw [hstep, List.pairwise_cons]
        exact ⟨hhead, htail⟩
      · have hstep : insertEvent ((n', cs) :: rest) name i c
            = (n', cs) :: insertEvent rest name i c := by
          simp [insertEvent, h1, h2]
        rw [hstep, List.pairwise_cons]
        have hgt : strLt n' name = true := by
          rcases strLt_total name n' with h | h | h
          · exact absurd h h1
          · exact absurd h h2
          · exact h
        constructor
        · intro p hp
          rcases mem_insertEvent rest name i c p hp with h | h | ⟨cs0, _, he'⟩
          · exact hhead p h
          · subst h; exact hgt
          · subst he'; exact hgt
        · exact ih name i c htail

/-- The structural invariant of the merged view: event names strictly
ascending, and every inner map nonempty with strictly ascending
sub-indices. -/
def viewInv (m : AggView) : Prop :=
  m.Pairwise (fun a b => strLt a.1 b.1 = true) ∧
    ∀ e ∈ m, e.2 ≠ [] ∧ e.2.Pairwise (fun p q => p.1 < q.1)

lemma viewInv_insertEvent (m : AggView) (name : String) (i : Int) (c : Nat)
    (hm : viewInv m) : viewInv (insertEvent m name i c) := by
  refine ⟨pairwise_insertEvent m name i c hm.1, ?_⟩
  intro e he
  rcases mem_insertEvent m name i c e he with h | h | ⟨cs, hcs, he'⟩
  · exact hm.2 e h
  · subst h; exact ⟨by simp, by simp⟩
  · subst he'
    exact ⟨insertCount_ne_nil cs i c,
      pairwise_insertCount cs i c (hm.2 (name, cs) hcs).2⟩

lemma viewInv_mergeStore : ∀ (s : Store) (m : AggView),
    viewInv m → viewInv (mergeStore m s) := by
  intro s
  induction s with
  | nil => intro m hm; exact hm
  | cons e rest ih =>
    intro m hm
    exact ih (insertEvent m e.1.1 e.1.2 e.2) (viewInv_insertEvent m _ _ _ hm)

lemma viewInv_mergeStores (stores : List Store) : viewInv (mergeStores stores) := by
  suffices h : ∀ (ss : List Store) (m : AggView),
      viewInv m → viewInv (ss.foldl mergeStore m) by
    refine h stores [] ⟨List.Pairwise.nil, ?_⟩
    intro e he
    simp at he
  intro ss
  induction ss with
  | nil => intro m hm; exact hm
  | cons s rest ih =>
    intro m hm
    exact ih (mergeStore m s) (viewInv_mergeStore s m hm)

/-- Claim C4: the report iterates event names in strictly ascending
lexicographic order of the name string (the order of
`BTreeMap<&str, _>`), and within each name the `(sub-index, count)`
pairs in strictly ascending signed-integer order, so the line order is
a function of the store contents alone. -/
theorem report_output_ordered (stores : List Store) :
    (mergeStores stores).Pairwise (fun a b => strLt a.1 b.1 = true) ∧
      ∀ e ∈ mergeStores stores, e.2.Pairwise (fun p q => p.1 < q.1) :=
  ⟨(viewInv_mergeStores stores).1,
    fun e he => ((viewInv_mergeStores stores).2 e he).2⟩

theorem report_output_ordered_witness :
    ([(0, 1), (3, 1)] : List (Int × Nat)).Pairwise (fun p q => p.1 < q.1) :=
  (report_output_ordered (applyCalls [(0, "b", 2), (0, "a", 0), (0, "a", 3)])).2
    ("a", [(0, 1), (3, 1)]) (by decide)

lemma breakdown_cond_iff (cs : List (Int × Nat)) :
    (1 < cs.length || !hasIndexZero cs) = true ↔
      (1 < cs.length ∨ ∀ p ∈ cs, p.1 ≠ 0) := by
  simp only [hasIndexZero, Bool.or_eq_true, decide_eq_true_eq,
    Bool.not_eq_true', List.any_eq_false, beq_iff_eq]

/-- Claim C2: for every name group of the merged view, the per-index
breakdown lines are emitted exactly when there is more than one
distinct sub-index (the group being strictly sorted, its length counts
distinct sub-indices) or no sub-index equal to 0 is present; the
remaining possibility, exactly one sub-index that is 0, is the one
case in which only the sum line is printed. -/
theorem breakdown_emission_rule (stores : List Store) (name : String)
    (cs : List (Int × Nat)) (h : (name, cs) ∈ mergeStores stores) :
    ((1 < cs.length ∨ ∀ p ∈ cs, p.1 ≠ 0) →
        renderEvent name cs = sumLine name cs :: breakdownLines name cs ∧
          breakdownLines name cs ≠ []) ∧
      (¬ (1 < cs.length ∨ ∀ p ∈ cs, p.1 ≠ 0) →
          renderEvent name cs = [sumLine name cs]) ∧
      (¬ (1 < cs.length ∨ ∀ p ∈ cs, p.1 ≠ 0) ↔ ∃ c, cs = [(0, c)]) := by
  have hne : cs ≠ [] := ((viewInv_mergeStores stores).2 (name, cs) h).1
  refine ⟨?_, ?_, ?_⟩
  · intro hc
    rw [renderEvent, if_pos ((breakdown_cond_iff cs).mpr hc)]
    refine ⟨rfl, ?_⟩
    simp [breakdownLines, hne]
  · intro hc
    rw [renderEvent, if_neg (fun hh => hc ((breakdown_cond_iff cs).mp hh))]
  · constructor
    · intro hc
      push_neg at hc
      obtain ⟨hlen, p, hp, hp0⟩ := hc
      cases cs with
      | nil => exact absurd rfl hne
      | cons q rest =>
        cases rest with
        | nil =>
          simp only [List.mem_singleton] at hp
          subst hp
          obtain ⟨p1, p2⟩ := p
          simp only at hp0
          subst hp0
          exact ⟨p2, rfl⟩
        | cons r rest2 => simp at hlen
    · rintro ⟨c, rfl⟩
      simp

theorem breakdown_emission_rule_witness :
    renderEvent "x" [(0, 1)] = [sumLine "x" [(0, 1)]] :=
  (breakdown_emission_rule [[(("x", 0), 1)]] "x" [(0, 1)] (by decide)).2.1
    (by decide)

/-! ### Positivity of all stored counts -/

/-- Every count in every registered store is at least 1. -/
def storesPos (stores : List Store) : Prop :=
  ∀ st ∈ stores, ∀ e ∈ st, 1 ≤ e.2

lemma bump_pos : ∀ (s : Store) (k : String × Int),
    (∀ e ∈ s, 1 ≤ e.2) → ∀ e ∈ bump s k, 1 ≤ e.2 := by
  intro s
  induction s with
  | nil =>
    intro k _ e he
    simp [bump] at he
    subst he; simp
  | cons q rest ih =>
    obtain ⟨k', c⟩ := q
    intro k hs e he
    have hq : 1 ≤ c := hs (k', c) (List.mem_cons_self _ _)
    have hrest : ∀ x ∈ rest, 1 ≤ x.2 := fun x hx => hs x (List.mem_cons_of_mem _ hx)
    by_cases h : k' = k
    · simp only [bump, if_pos h] at he
      rcases List.mem_cons.mp he with h' | h'
      · subst h'; simp
      · exact hrest e h'
    · simp only [bump, if_neg h] at he
      rcases List.mem_cons.mp he with h' | h'
      · subst h'; exact hq
      · exact ih k hrest e h'

lemma getStore_pos : ∀ (l : List Store) (t : Nat),
    storesPos l → ∀ e ∈ getStore l t, 1 ≤ e.2 := by
  intro l
  induction l with
  | nil => intro t _ e he; simp [getStore] at he
  | cons s rest ih =>
    intro t h e he
    cases t with
    | zero => exact h s (List.mem_cons_self _ _) e he
    | succ t =>
      exact ih t (fun st hst => h st (List.mem_cons_of_mem _ hst)) e he

lemma setStore_pos : ∀ (l : List Store) (t : Nat) (s : Store),
    storesPos l → (∀ e ∈ s, 1 ≤ e.2) → storesPos (setStore l t s) := by
  intro l
  induction l with
  | nil => intro t s _ _ st hst; simp [setStore] at hst
  | cons x rest ih =>
    intro t s h hsk st hst
    have hrest : storesPos rest := fun y hy => h y (List.mem_cons_of_mem _ hy)
    cases t with
    | zero =>
      rcases List.mem_cons.mp hst with h' | h'
      · subst h'; exact hsk
      · exact hrest st h'
    | succ t =>
      rcases List.mem_cons.mp hst with h' | h'
      · rw [h']; exact h x (List.mem_cons_self _ _)
      · exact ih t s hrest hsk st h'

lemma storesPos_recordCall (l : List Store) (t : Nat) (name : String)
    (idx : Int) (h : storesPos l) : storesPos (recordCall l t name idx) := by
  rw [recordCall]
  by_cases ht : t < l.length
  · rw [if_pos ht, recordAt]
    exact setStore_pos l t _ h (bump_pos _ _ (getStore_pos l t h))
  · rw [if_neg ht]
    intro st hst
    rcases List.mem_append.mp hst with h1 | h1
    · exact h st h1
    · simp only [List.mem_singleton] at h1
      subst h1
      exact bump_pos [] _ (by intro e he; simp at he)

lemma storesPos_applyCalls (calls : List (Nat × String × Int)) :
    storesPos (applyCalls calls) := by
  suffices h : ∀ (cl : List (Nat × String × Int)) (acc : List Store),
      storesPos acc →
        storesPos (cl.foldl (fun st c => recordCall st c.1 c.2.1 c.2.2) acc) by
    exact h calls [] (by intro st hst; simp at hst)
  intro cl
  induction cl with
  | nil => intro acc h; exact h
  | cons c rest ih =>
    intro acc h
    exact ih _ (storesPos_recordCall acc c.1 c.2.1 c.2.2 h)

lemma insertCount_pos : ∀ (l : List (Int × Nat)) (i : Int) (c : Nat),
    1 ≤ c → (∀ p ∈ l, 1 ≤ p.2) → ∀ p ∈ insertCount l i c, 1 ≤ p.2 := by
  intro l
  induction l with
  | nil =>
    intro i c hc _ p hp
    simp [insertCount] at hp
    subst hp; exact hc
  | cons q rest ih =>
    obtain ⟨i', c'⟩ := q
    intro i c hc hl p hp
    have hq : 1 ≤ c' := hl (i', c') (List.mem_cons_self _ _)
    have hrest : ∀ x ∈ rest, 1 ≤ x.2 := fun x hx => hl x (List.mem_cons_of_mem _ hx)
    by_cases h1 : i < i'
    · simp only [insertCount, if_pos h1] at hp
      rcases List.mem_cons.mp hp with h | h
      · subst h; exact hc
      · rcases List.mem_cons.mp h with h' | h'
        · subst h'; exact hq
        · exact hrest p h'
    · by_cases h2 : i = i'
      · simp only [insertCount, if_neg h1, if_pos h2] at hp
        rcases List.mem_cons.mp hp with h | h
        · subst h; exact hc
        · exact hrest p h
      · simp only [insertCount, if_neg h1, if_neg h2] at hp
        rcases List.mem_cons.mp hp with h | h
        · subst h; exact hq
        · exact ih i c hc hrest p h

/-- Every count in the merged view is at least 1. -/
def viewPos (m : AggView) : Prop :=
  ∀ e ∈ m, ∀ p ∈ e.2, 1 ≤ p.2

lemma viewPos_insertEvent (m : AggView) (name : String) (i : Int) (c : Nat)
    (hc : 1 ≤ c) (hm : viewPos m) : viewPos (insertEvent m name i c) := by
  intro e he
  rcases mem_insertEvent m name i c e he with h | h | ⟨cs, hcs, he'⟩
  · exact hm e h
  · subst h
    intro p hp
    simp only [List.mem_singleton] at hp
    subst hp; exact hc
  · subst he'
    intro p hp
    exact insertCount_pos cs i c hc (hm (name, cs) hcs) p hp

lemma viewPos_mergeStore : ∀ (s : Store) (m : AggView),
    (∀ e ∈ s, 1 ≤ e.2) → viewPos m → viewPos (mergeStore m s) := by
  intro s
  induction s with
  | nil => intro m _ hm; exact hm
  | cons e rest ih =>
    intro m hs hm
    have h1 : 1 ≤ e.2 := hs e (List.mem_cons_self _ _)
    have h2 : ∀ x ∈ rest, 1 ≤ x.2 := fun x hx => hs x (List.mem_cons_of_mem _ hx)
    exact ih (insertEvent m e.1.1 e.1.2 e.2) h2
      (viewPos_insertEvent m e.1.1 e.1.2 e.2 h1 hm)

lemma viewPos_mergeStores (stores : List Store) (h : storesPos stores) :
    viewPos (mergeStores stores) := by
  suffices hh : ∀ (ss : List Store) (m : AggView),
      storesPos ss → viewPos m → viewPos (ss.foldl mergeStore m) by
    exact hh stores [] h (by intro e he; simp at he)
  intro ss
  induction ss with
  | nil => intro m _ hm; exact hm
  | cons s rest ih =>
    intro m hss hm
    exact ih (mergeStore m s)
      (fun st hst => hss st (List.mem_cons_of_mem _ hst))
      (viewPos_mergeStore s m (hss s (List.mem_cons_self _ _)) hm)

lemma sum_pos_of_pos (cs : List (Int × Nat)) (hne : cs ≠ [])
    (h : ∀ p ∈ cs, 1 ≤ p.2) : 0 < (cs.map Prod.snd).sum := by
  cases cs with
  | nil => exact absurd rfl hne
  | cons p rest =>
    have := h p (List.mem_cons_self _ _)
    simp only [List.map_cons, List.sum_cons]
    omega

/-- Claim C9: a key appears in a store only once bumped, so every count
in every store reachable by a sequence of `event!` calls is at least 1;
hence every name group of the merged view has only counts of at least 1
and a strictly positive total, so the percentage computation never
divides by zero. -/
theorem counts_positive_no_div_by_zero (calls : List (Nat × String × Int))
    (name : String) (cs : List (Int × Nat))
    (h : (name, cs) ∈ mergeStores (applyCalls calls)) :
    (∀ st ∈ applyCalls calls, ∀ e ∈ st, 1 ≤ e.2) ∧
      (∀ p ∈ cs, 1 ≤ p.2) ∧ 0 < (cs.map Prod.snd).sum := by
  have hsp := storesPos_applyCalls calls
  have hvp := viewPos_mergeStores (applyCalls calls) hsp (name, cs) h
  have hne : cs ≠ [] :=
    ((viewInv_mergeStores (applyCalls calls)).2 (name, cs) h).1
  exact ⟨hsp, hvp, sum_pos_of_pos cs hne hvp⟩

theorem counts_positive_no_div_by_zero_witness :
    (∀ st ∈ applyCalls [(0, "a", 0)], ∀ e ∈ st, 1 ≤ e.2) ∧
      (∀ p ∈ ([(0, 1)] : List (Int × Nat)), 1 ≤ p.2) ∧
      0 < (([(0, 1)] : List (Int × Nat)).map Prod.snd).sum :=
  counts_positive_no_div_by_zero [(0, "a", 0)] "a" [(0, 1)] (by decide)

/-! ### The lock discipline of print_counts -/

/-- Claim C5, counterexample: with a single registered store, the trace
of `print_counts` is `acqRegistry, acqStore 0, relStore 0, relRegistry`
— the store lock is acquired (and the store merged) while the registry
lock is still held, because the `maps` guard lives until the function
returns; the registry lock is NOT released before merging. -/
theorem registry_lock_not_released_before_merge :
    ¬ registryReleasedBeforeMerge (printCountsLockTrace 1) := by
  intro hcl
  exact absurd
    (hcl [LockEvent.acqRegistry] 0 [LockEvent.relStore 0, LockEvent.relRegistry]
      (by decide))
    (by decide)

lemma lock_discipline_middle (is : List Nat) :
    (∀ s ∈ lockStatesFrom ⟨true, []⟩
        ((is.flatMap fun i => [LockEvent.acqStore i, LockEvent.relStore i])
          ++ [LockEvent.relRegistry]),
      s.storeHeld.length ≤ 1 ∧ (s.storeHeld ≠ [] → s.registryHeld = true)) ∧
      runLocks ⟨true, []⟩
        ((is.flatMap fun i => [LockEvent.acqStore i, LockEvent.relStore i])
          ++ [LockEvent.relRegistry]) = ⟨false, []⟩ := by
  induction is with
  | nil =>
    constructor
    · intro s hs
      simp only [List.flatMap_nil, List.nil_append, lockStatesFrom, stepLock,
        List.mem_cons, List.mem_singleton] at hs
      rcases hs with h | h | h
      · rw [h]; exact ⟨by simp, by simp⟩
      · rw [h]; exact ⟨by simp, by simp⟩
      · simp at h
    · rfl
  | cons i rest ih =>
    constructor
    · intro s hs
      simp only [List.flatMap_cons, List.cons_append, lockStatesFrom, stepLock,
        List.mem_cons] at hs
      rcases hs with h | h | h
      · rw [h]; exact ⟨by simp, by simp⟩
      · rw [h]; exact ⟨by simp, by simp⟩
      · have hs' : s ∈ lockStatesFrom ⟨true, []⟩
            ((rest.flatMap fun j => [LockEvent.acqStore j, LockEvent.relStore j])
              ++ [LockEvent.relRegistry]) := by
          simpa [List.erase_cons_head] using h
        exact ih.1 s hs'
    · have : runLocks ⟨true, []⟩
          (((i :: rest).flatMap fun j => [LockEvent.acqStore j, LockEvent.relStore j])
            ++ [LockEvent.relRegistry])
          = runLocks ⟨true, []⟩
              ((rest.flatMap fun j => [LockEvent.acqStore j, LockEvent.relStore j])
                ++ [LockEvent.relRegistry]) := by
        simp [runLocks, stepLock, List.erase_cons_head]
      rw [this]
      exact ih.2

/-- Claim C5, amended: `print_counts` holds the registry lock for its
whole run — in particular whenever a store lock is held, i.e. whenever
a store is being merged — and acquires the store locks one at a time
(never more than one store lock held, each released before the next is
acquired), ending with every lock released. -/
theorem print_counts_lock_discipline (n : Nat) :
    (∀ s ∈ lockStatesFrom ⟨false, []⟩ (printCountsLockTrace n),
        s.storeHeld.length ≤ 1 ∧ (s.storeHeld ≠ [] → s.registryHeld = true)) ∧
      runLocks ⟨false, []⟩ (printCountsLockTrace n) = ⟨false, []⟩ := by
  have hmid := lock_discipline_middle (List.range n)
  constructor
  · intro s hs
    simp only [printCountsLockTrace, lockStatesFrom, stepLock, List.mem_cons] at hs
    rcases hs with h | h
    · rw [h]; exact ⟨by simp, by simp⟩
    · exact hmid.1 s h
  · have : runLocks ⟨false, []⟩ (printCountsLockTrace n)
        = runLocks ⟨true, []⟩
            (((List.range n).flatMap fun i => [LockEvent.acqStore i, LockEvent.relStore i])
              ++ [LockEvent.relRegistry]) := rfl
    rw [this]
    exact hmid.2

theorem print_counts_lock_discipline_witness :
    (⟨true, [0]⟩ : LockState).storeHeld.length ≤ 1 ∧
      ((⟨true, [0]⟩ : LockState).storeHeld ≠ [] →
        (⟨true, [0]⟩ : LockState).registryHeld = true) :=
  (print_counts_lock_discipline 1).1 ⟨true, [0]⟩ (by decide)
